import Mathlib

/-!
Verification of the `SimpleMessageQueue` pub/sub bus from
`src/ruby/message_queue/message_queue.rb`, and of the map-reduce driver the
repository references (`map_reduce.rb`, not present under `src/`; where it is
needed it is modelled from the spec, and marked as such).

Shallow embedding notes, matched line-by-line against the Ruby source:

* `@subscribers = Hash.new { |hash, key| hash[key] = [] }` — a hash whose
  default block lazily inserts an empty array.  Observationally (through the
  public `subscribe`/`publish` interface) this is a total function from topic
  strings to handler lists with default `[]`, which is how `MQState.subs`
  models it.  (The hidden insertion of an empty array on first lookup is not
  observable through the public interface.)

* `subscribe(*types, &block)` flattens its arguments and appends `block` to
  each named topic's array, in list order.  We model the already-flattened
  topic list as a `List String`.  Ruby performs no validation: an empty list
  is a silent no-op and a missing block stores `nil` in the array; the absent
  block is modelled by the dedicated handler `Handler.hnil`, whose invocation
  raises (Ruby `nil.call` raises `NoMethodError`, a `StandardError`).

* `publish(type, data = nil)` reads `@subscribers[type]` (always truthy, since
  the default block yields `[]`, so the `return unless` guard never fires) and
  runs `@subscribers[type].each { |subscriber| begin subscriber.call(data)
  rescue => e end }`.  Two semantic points are modelled exactly:
  - `Array#each` iterates the *live* array by index, so handlers appended to
    the same topic's array during the sweep *are* visited by the same sweep;
  - every `subscriber.call` is wrapped in its own `begin/rescue`, the error is
    discarded, and iteration continues, so `publish` always returns normally.
  The loop `publishAux` therefore iterates by index over the current list and
  discards the error component of each invocation.  It is driven by a fuel
  argument (so that it is structurally recursive and kernel-executable); the
  initial fuel `sizeSum (subs t) + 1` always suffices because every handler a
  subscriber-registering handler appends is a strict sub-term of it, and the
  theorem `publishAux_complete` below proves the sweep runs to completion
  (its trace covers every index of the final list), i.e. the fuel never
  truncates the iteration.

* Handlers in Ruby are arbitrary blocks.  The inductive `Handler` is the
  closed universe of subscriber behaviours the spec's own properties and
  scenarios use: a recording/logging handler, an always-raising handler, a
  handler that registers another handler on the bus when invoked, a map-reduce
  accumulating reducer, and the stored `nil` block.  The state carries a ghost
  trace `calls` recording every attempted `subscriber.call(data)` in order
  (the "shared ordered log" of the spec's P1 test harness).
-/

/-- Payload values (`data` in the Ruby source): `nil`, a number, or a string.
The bus is payload-agnostic; these are the payload shapes the spec's
properties use. -/
inductive Val : Type where
  | vnil : Val
  | num : Int → Val
  | str : String → Val
deriving DecidableEq

/-- A subscriber block.  `logger` records its invocation (P1/Scenario A test
device); `failing` raises on every invocation (P2 test device); `subscriberH`
calls `subscribe` on the bus with the given topics and inner handler when
invoked; `reducer` folds a numeric payload into a per-key (sum, count)
accumulator (modelled from the spec, §4.3, for the absent `map_reduce.rb`);
`hnil` is the stored `nil` of a `subscribe` call made without a block, whose
invocation raises `NoMethodError`. -/
inductive Handler : Type where
  | logger : Nat → Handler
  | failing : Nat → Handler
  | subscriberH : Nat → List String → Handler → Handler
  | reducer : String → Handler
  | hnil : Handler
deriving DecidableEq

/-- Size measure on handlers, used only to compute a sufficient fuel for the
live-array sweep: a `subscriberH` can append its inner handler once per listed
topic, and each appended handler is strictly smaller. -/
def hsize : Handler → Nat
  | .subscriberH _ tps inner => 1 + (tps.length + 1) * hsize inner
  | _ => 1

/-- Total size of a handler list. -/
def sizeSum (hs : List Handler) : Nat := (hs.map hsize).sum

/-- The state of one `SimpleMessageQueue` instance.  `subs` is the
`@subscribers` hash (total function with default `[]`); `calls` is the ghost
trace of every attempted `subscriber.call(data)`, in order; `accs` holds the
per-key (sum, count) accumulators owned by `reducer` handlers (modelled from
the spec for the absent map-reduce file). -/
structure MQState where
  subs : String → List Handler
  calls : List (Handler × Val)
  accs : List (String × Int × Nat)

/-- A freshly constructed `SimpleMessageQueue`: the hash is empty (every topic
reads as `[]`), nothing has been called, no accumulator exists. -/
def init : MQState := ⟨fun _ => [], [], []⟩

/-- `subscribe(*types, &block)`: `types.each { |type| @subscribers[type] <<
block }` — append the block to each listed topic's array, in order.  The Ruby
method performs no validation whatsoever. -/
def subscribe : List String → Handler → MQState → MQState
  | [], _, s => s
  | ty :: rest, h, s =>
      subscribe rest h
        { s with subs := fun x => if x = ty then s.subs x ++ [h] else s.subs x }

/-- An error escaping a subscriber block: an explicit `raise`, or the
`NoMethodError` from calling a stored `nil` block. -/
inductive HErr : Type where
  | raised : HErr
  | nilCall : HErr
deriving DecidableEq

/-- Numeric content of a payload (what a reducer adds to its sum). -/
def toInt : Val → Int
  | .num n => n
  | _ => 0

/-- Update-or-insert the (sum, count) accumulator for `key`: add `n` to the
sum and bump the count. -/
def bump (key : String) (n : Int) : List (String × Int × Nat) → List (String × Int × Nat)
  | [] => [(key, n, 1)]
  | (k, sm, c) :: rest =>
      if k = key then (k, sm + n, c + 1) :: rest else (k, sm, c) :: bump key n rest

/-- One `subscriber.call(data)` attempt.  The attempt is recorded on the ghost
trace, then the block's body runs: a logger does nothing further, a failing
block raises, a subscribing block calls `subscribe` on the same bus, a reducer
updates its accumulator, and the stored `nil` raises `NoMethodError`.  The
second component is the error the block raised, if any — `publish` discards
it (`rescue => e` with an empty body). -/
def runHandler (h : Handler) (v : Val) (s : MQState) : MQState × Option HErr :=
  let s0 : MQState := { s with calls := s.calls ++ [(h, v)] }
  match h with
  | .logger _ => (s0, none)
  | .failing _ => (s0, some .raised)
  | .subscriberH _ tps inner => (subscribe tps inner s0, none)
  | .reducer key => ({ s0 with accs := bump key (toInt v) s0.accs }, none)
  | .hnil => (s0, some .nilCall)

/-- The delivery sweep of `publish`: Ruby's `@subscribers[type].each`, which
iterates the live array by index — at step `i` it re-reads the current array
and stops as soon as `i` is past its (possibly grown) length.  Each
invocation's error component is dropped, exactly as the per-iteration
`begin/rescue` does.  The fuel makes the recursion structural; `publish`
passes fuel that provably never runs out (`publishAux_complete`). -/
def publishAux : Nat → Nat → String → Val → MQState → MQState
  | 0, _, _, _, s => s
  | fuel + 1, i, t, v, s =>
      let hs := s.subs t
      if hlt : i < hs.length then
        publishAux fuel (i + 1) t v (runHandler (hs.get ⟨i, hlt⟩) v s).1
      else s

/-- `publish(type, data = nil)`: sweep the topic's current subscriber array
from index 0.  (`return unless @subscribers[type]` never fires: the hash
default yields `[]`, which is truthy in Ruby.) -/
def publish (t : String) (v : Val) (s : MQState) : MQState :=
  publishAux (sizeSum (s.subs t) + 1) 0 t v s

/-- A handler is tame for topic `t` when invoking it cannot append to `t`'s
own subscriber array (it may still log, raise, reduce, or subscribe to other
topics). -/
def tameB (t : String) : Handler → Bool
  | .subscriberH _ tps _ => decide (t ∉ tps)
  | _ => true

/-- Does invoking this handler raise an error (to be rescued by `publish`)? -/
def raisesB : Handler → Bool
  | .failing _ => true
  | .hnil => true
  | _ => false

theorem hsize_pos (h : Handler) : 1 ≤ hsize h := by
  cases h <;> simp [hsize]

theorem length_le_sizeSum (hs : List Handler) : hs.length ≤ sizeSum hs := by
  induction hs with
  | nil => simp [sizeSum]
  | cons h rest ih =>
      have := hsize_pos h
      simp only [sizeSum, List.map_cons, List.sum_cons, List.length_cons]
      simp only [sizeSum] at ih
      omega

theorem subscribe_subs (types : List String) (h : Handler) (s : MQState) (u : String) :
    (subscribe types h s).subs u = s.subs u ++ List.replicate (types.count u) h := by
  induction types generalizing s with
  | nil => simp [subscribe]
  | cons ty rest ih =>
      simp only [subscribe, ih]
      by_cases hu : u = ty
      · subst hu
        simp [List.count_cons, List.replicate_succ, List.append_assoc]
      · have : ¬ (ty == u) = true := by simpa [beq_iff_eq] using fun e => hu e.symm
        simp [List.count_cons, this, hu]

theorem subscribe_calls (types : List String) (h : Handler) (s : MQState) :
    (subscribe types h s).calls = s.calls := by
  induction types generalizing s with
  | nil => rfl
  | cons ty rest ih => simp [subscribe, ih]

theorem subscribe_accs (types : List String) (h : Handler) (s : MQState) :
    (subscribe types h s).accs = s.accs := by
  induction types generalizing s with
  | nil => rfl
  | cons ty rest ih => simp [subscribe, ih]

theorem runHandler_calls (h : Handler) (v : Val) (s : MQState) :
    (runHandler h v s).1.calls = s.calls ++ [(h, v)] := by
  cases h <;> simp [runHandler, subscribe_calls]

theorem runHandler_subs_tame (t : String) (h : Handler) (v : Val) (s : MQState)
    (ht : tameB t h = true) : (runHandler h v s).1.subs t = s.subs t := by
  cases h with
  | subscriberH id tps inner =>
      have hmem : t ∉ tps := by
        simpa [tameB] using ht
      have hc : tps.count t = 0 := List.count_eq_zero.mpr hmem
      simp [runHandler, subscribe_subs, hc]
  | logger id => rfl
  | failing id => rfl
  | reducer key => rfl
  | hnil => rfl

/-- Invoking any handler only ever appends to a topic's subscriber array, and
the appended handlers are strictly smaller (in `hsize`) than the invoked one.
This is why the live-array sweep terminates and why `publish`'s fuel never
runs out. -/
theorem runHandler_subs_append (t : String) (h : Handler) (v : Val) (s : MQState) :
    ∃ app, (runHandler h v s).1.subs t = s.subs t ++ app ∧ sizeSum app + 1 ≤ hsize h := by
  cases h with
  | subscriberH id tps inner =>
      refine ⟨List.replicate (tps.count t) inner, by simp [runHandler, subscribe_subs], ?_⟩
      have hcount : tps.count t ≤ tps.length := List.count_le_length t tps
      have hpos := hsize_pos inner
      have hrep : sizeSum (List.replicate (tps.count t) inner) = tps.count t * hsize inner := by
        simp [sizeSum, List.map_replicate, List.sum_replicate, smul_eq_mul]
      rw [hrep, hsize]
      have : tps.count t * hsize inner ≤ tps.length * hsize inner :=
        Nat.mul_le_mul_right _ hcount
      nlinarith
  | logger id => exact ⟨[], by simp [runHandler, sizeSum, hsize]⟩
  | failing id => exact ⟨[], by simp [runHandler, sizeSum, hsize]⟩
  | reducer key => exact ⟨[], by simp [runHandler, sizeSum, hsize]⟩
  | hnil => exact ⟨[], by simp [runHandler, sizeSum, hsize]⟩

theorem sizeSum_append (a b : List Handler) : sizeSum (a ++ b) = sizeSum a + sizeSum b := by
  simp [sizeSum]

theorem sizeSum_cons (h : Handler) (rest : List Handler) :
    sizeSum (h :: rest) = hsize h + sizeSum rest := by
  simp [sizeSum]

theorem publishAux_exit (fuel i : Nat) (t : String) (v : Val) (s : MQState)
    (hge : (s.subs t).length ≤ i) : publishAux (fuel + 1) i t v s = s := by
  simp [publishAux, Nat.not_lt.mpr hge]

theorem publishAux_step (fuel i : Nat) (t : String) (v : Val) (s : MQState)
    (hlt : i < (s.subs t).length) :
    publishAux (fuel + 1) i t v s
      = publishAux fuel (i + 1) t v (runHandler ((s.subs t).get ⟨i, hlt⟩) v s).1 := by
  simp [publishAux, hlt]

/-- The sweep over a topic whose pending handlers are all tame for it: the
subscriber array never changes, and the ghost trace is extended by exactly one
call (in array order, with the published payload) per pending handler. -/
theorem publishAux_tame (t : String) (v : Val) :
    ∀ (fuel i : Nat) (s : MQState),
      (∀ h ∈ (s.subs t).drop i, tameB t h = true) →
      (s.subs t).length + 1 ≤ fuel + i →
      (publishAux fuel i t v s).calls
          = s.calls ++ ((s.subs t).drop i).map (fun h => (h, v)) ∧
        (publishAux fuel i t v s).subs t = s.subs t := by
  intro fuel
  induction fuel with
  | zero =>
      intro i s htame hfuel
      have hge : (s.subs t).length ≤ i := by omega
      simp [publishAux, List.drop_eq_nil_of_le hge]
  | succ fuel ih =>
      intro i s htame hfuel
      by_cases hlt : i < (s.subs t).length
      · have hdrop : (s.subs t).drop i = (s.subs t).get ⟨i, hlt⟩ :: (s.subs t).drop (i + 1) := by
          simpa using List.drop_eq_getElem_cons hlt
        have hmem : (s.subs t).get ⟨i, hlt⟩ ∈ (s.subs t).drop i := by
          rw [hdrop]; exact List.mem_cons_self _ _
        have htm : tameB t ((s.subs t).get ⟨i, hlt⟩) = true := htame _ hmem
        have hsubs1 : (runHandler ((s.subs t).get ⟨i, hlt⟩) v s).1.subs t = s.subs t :=
          runHandler_subs_tame t _ v s htm
        have hcalls1 : (runHandler ((s.subs t).get ⟨i, hlt⟩) v s).1.calls
            = s.calls ++ [((s.subs t).get ⟨i, hlt⟩, v)] := runHandler_calls _ v s
        rw [publishAux_step fuel i t v s hlt]
        have htame1 : ∀ g ∈ ((runHandler ((s.subs t).get ⟨i, hlt⟩) v s).1.subs t).drop (i + 1),
            tameB t g = true := by
          intro g hg
          rw [hsubs1] at hg
          exact htame g (by rw [hdrop]; exact List.mem_cons_of_mem _ hg)
        have hfuel1 : ((runHandler ((s.subs t).get ⟨i, hlt⟩) v s).1.subs t).length + 1
            ≤ fuel + (i + 1) := by rw [hsubs1]; omega
        obtain ⟨hc, hsub⟩ := ih (i + 1) _ htame1 hfuel1
        refine ⟨?_, by rw [hsub, hsubs1]⟩
        rw [hc, hcalls1, hsubs1, hdrop]
        simp only [List.map_cons, List.append_assoc, List.cons_append, List.nil_append]
      · have hge : (s.subs t).length ≤ i := Nat.not_lt.1 hlt
        rw [publishAux_exit fuel i t v s hge]
        simp [List.drop_eq_nil_of_le hge]

/-- The live-array sweep always runs to completion with the fuel `publish`
supplies: the final ghost trace extends the initial one by exactly one call
per index (from `i` on) of the *final* subscriber array, and the final array
only extends the initial one (the sweep and the handlers it runs never
truncate, reorder, or skip; handlers appended mid-sweep are themselves
visited).  In particular the fuel never cuts the iteration short. -/
theorem publishAux_complete (t : String) (v : Val) :
    ∀ (fuel i : Nat) (s : MQState),
      sizeSum ((s.subs t).drop i) + 1 ≤ fuel →
      (publishAux fuel i t v s).calls
          = s.calls ++ (((publishAux fuel i t v s).subs t).drop i).map (fun h => (h, v)) ∧
        ∃ ext, (publishAux fuel i t v s).subs t = s.subs t ++ ext := by
  intro fuel
  induction fuel with
  | zero => intro i s hfuel; omega
  | succ fuel ih =>
      intro i s hfuel
      by_cases hlt : i < (s.subs t).length
      · have hdrop : (s.subs t).drop i = (s.subs t).get ⟨i, hlt⟩ :: (s.subs t).drop (i + 1) := by
          simpa using List.drop_eq_getElem_cons hlt
        obtain ⟨app, happ, hsz⟩ := runHandler_subs_append t ((s.subs t).get ⟨i, hlt⟩) v s
        have hcalls1 : (runHandler ((s.subs t).get ⟨i, hlt⟩) v s).1.calls
            = s.calls ++ [((s.subs t).get ⟨i, hlt⟩, v)] := runHandler_calls _ v s
        have hdrop1 : ((runHandler ((s.subs t).get ⟨i, hlt⟩) v s).1.subs t).drop (i + 1)
            = (s.subs t).drop (i + 1) ++ app := by
          rw [happ, List.drop_append_of_le_length (by omega)]
        have hfuel1 : sizeSum (((runHandler ((s.subs t).get ⟨i, hlt⟩) v s).1.subs t).drop (i + 1))
            + 1 ≤ fuel := by
          rw [hdrop1, sizeSum_append]
          rw [hdrop, sizeSum_cons] at hfuel
          omega
        rw [publishAux_step fuel i t v s hlt]
        obtain ⟨hc, ext, hext⟩ := ih (i + 1) _ hfuel1
        have hsubsfin : (publishAux fuel (i + 1) t v
              (runHandler ((s.subs t).get ⟨i, hlt⟩) v s).1).subs t
            = s.subs t ++ (app ++ ext) := by
          rw [hext, happ, List.append_assoc]
        refine ⟨?_, app ++ ext, hsubsfin⟩
        have hdropfin : ((publishAux fuel (i + 1) t v
              (runHandler ((s.subs t).get ⟨i, hlt⟩) v s).1).subs t).drop i
            = (s.subs t).get ⟨i, hlt⟩
              :: ((publishAux fuel (i + 1) t v
                    (runHandler ((s.subs t).get ⟨i, hlt⟩) v s).1).subs t).drop (i + 1) := by
          rw [hsubsfin, List.drop_append_of_le_length (Nat.le_of_lt hlt),
            List.drop_append_of_le_length hlt, hdrop, List.cons_append]
        rw [hc, hcalls1, hdropfin]
        simp only [List.map_cons, List.append_assoc, List.cons_append, List.nil_append]
      · have hge : (s.subs t).length ≤ i := Nat.not_lt.1 hlt
        rw [publishAux_exit fuel i t v s hge]
        exact ⟨by simp [List.drop_eq_nil_of_le hge], [], by simp⟩

/-- Corollary of `publishAux_tame` at the entry point: publishing to a topic
whose registered handlers are all tame for it attempts exactly those handlers,
each once, in registration order, with the published payload, and leaves the
topic's subscriber array unchanged. -/
theorem publish_tame (t : String) (v : Val) (s : MQState)
    (htame : ∀ h ∈ s.subs t, tameB t h = true) :
    (publish t v s).calls = s.calls ++ (s.subs t).map (fun h => (h, v)) ∧
      (publish t v s).subs t = s.subs t := by
  have h0 : ∀ h ∈ (s.subs t).drop 0, tameB t h = true := by simpa using htame
  have hf : (s.subs t).length + 1 ≤ (sizeSum (s.subs t) + 1) + 0 := by
    have := length_le_sizeSum (s.subs t)
    omega
  simpa using publishAux_tame t v (sizeSum (s.subs t) + 1) 0 s h0 hf

theorem count_pair_map (h : Handler) (v : Val) (hs : List Handler) :
    ((hs.map (fun g => (g, v))).count (h, v)) = hs.count h := by
  induction hs with
  | nil => simp
  | cons g rest ih =>
      by_cases hg : g = h
      · subst hg
        simp [List.count_cons, ih]
      · have h1 : ¬ ((g, v) == (h, v)) = true := by
          simp [beq_iff_eq, Prod.ext_iff, hg]
        have h2 : ¬ (g == h) = true := by simp [beq_iff_eq, hg]
        simp [List.count_cons, ih, h1, h2]

/-- C2 — Ordered delivery.  For a topic whose registered subscriber list is
`[h1, ..., hn]` (all tame for the topic, i.e. none re-registers on the same
topic mid-delivery), one `publish` call attempts exactly those handlers, each
exactly once, in registration order, each with the published payload: the
ghost call trace is extended by precisely `[(h1, v), ..., (hn, v)]`.
Determinism is inherent: `publish` is a function of the state.  (Invariant
I1 / property P1.) -/
theorem publish_ordered_delivery (t : String) (v : Val) (s : MQState)
    (htame : ∀ h ∈ s.subs t, tameB t h = true) :
    (publish t v s).calls = s.calls ++ (s.subs t).map (fun h => (h, v)) :=
  (publish_tame t v s htame).1

theorem publish_ordered_delivery_witness :
    (publish "x" (Val.str "payload1")
        (subscribe ["x"] (Handler.logger 3)
          (subscribe ["x"] (Handler.logger 2)
            (subscribe ["x"] (Handler.logger 1) init)))).calls
      = [(Handler.logger 1, Val.str "payload1"), (Handler.logger 2, Val.str "payload1"),
          (Handler.logger 3, Val.str "payload1")] := by
  have h := publish_ordered_delivery "x" (Val.str "payload1")
    (subscribe ["x"] (Handler.logger 3)
      (subscribe ["x"] (Handler.logger 2)
        (subscribe ["x"] (Handler.logger 1) init)))
    (by decide)
  simpa using h

/-- C1 — Fault isolation.  If among the registered handlers of a topic the
one at position `k` raises when invoked (`raisesB`: an explicit `raise`, or a
stored `nil` block), a single `publish` call still attempts every registered
handler — including every handler after position `k` — each with the payload,
in order; and the final subscriber list extends the initial one, so delivery
covered at least the full registered list.  `publish` itself is a total
function into `MQState` whose loop discards each invocation's error component
(the per-handler `begin/rescue`), which is the embedding of "no exception
escapes to the publisher's call stack".  (Invariant I3 / property P2.) -/
theorem publish_fault_isolation (t : String) (v : Val) (s : MQState) (k : Nat)
    (hk : k < (s.subs t).length)
    (hraise : raisesB ((s.subs t).get ⟨k, hk⟩) = true) :
    ∃ ext, (publish t v s).calls
      = s.calls ++ ((s.subs t ++ ext).map (fun h => (h, v))) := by
  have hf : sizeSum ((s.subs t).drop 0) + 1 ≤ sizeSum (s.subs t) + 1 := by simp
  obtain ⟨hc, ext, hext⟩ :=
    publishAux_complete t v (sizeSum (s.subs t) + 1) 0 s hf
  refine ⟨ext, ?_⟩
  show (publish t v s).calls = _
  rw [show (publish t v s) = publishAux (sizeSum (s.subs t) + 1) 0 t v s from rfl, hc, hext]
  simp

theorem publish_fault_isolation_witness :
    ∃ ext : List Handler, (publish "fault" (Val.num 1)
        (subscribe ["fault"] (Handler.logger 3)
          (subscribe ["fault"] (Handler.failing 2)
            (subscribe ["fault"] (Handler.logger 1) init)))).calls
      = ([(Handler.logger 1, Val.num 1), (Handler.failing 2, Val.num 1),
          (Handler.logger 3, Val.num 1)] ++ ext.map (fun h => (h, Val.num 1))) := by
  obtain ⟨ext, hcalls⟩ := publish_fault_isolation "fault" (Val.num 1)
    (subscribe ["fault"] (Handler.logger 3)
      (subscribe ["fault"] (Handler.failing 2)
        (subscribe ["fault"] (Handler.logger 1) init)))
    1 (by decide) (by decide)
  refine ⟨ext, ?_⟩
  rw [hcalls,
    show (subscribe ["fault"] (Handler.logger 3)
        (subscribe ["fault"] (Handler.failing 2)
          (subscribe ["fault"] (Handler.logger 1) init))).subs "fault"
      = [Handler.logger 1, Handler.failing 2, Handler.logger 3] from by decide]
  simp [subscribe_calls, init]

/-- C8 — No-subscriber no-op.  Publishing on a topic with zero registered
subscribers returns the state completely unchanged: no handler is attempted,
no subscriber list, trace, or accumulator moves.  (The Ruby `return unless
@subscribers[type]` guard never fires — the hash default yields `[]`, which is
truthy — but iterating an empty array is already a no-op; the hash's hidden
lazy insertion of the empty array is not observable through the public
interface, which is exactly what the total-function model `MQState.subs`
captures.)  (Property P5.) -/
theorem publish_no_subscribers_noop (t : String) (v : Val) (s : MQState)
    (hempty : s.subs t = []) : publish t v s = s := by
  rw [publish, hempty]
  simp [publishAux, sizeSum, hempty]

theorem publish_no_subscribers_noop_witness :
    publish "unregistered-topic" (Val.str "anything") init = init :=
  publish_no_subscribers_noop "unregistered-topic" (Val.str "anything") init rfl

/-- C9 — Registration frame property.  Registering one subscription under
topic `t` (a `subscribe` call for the single topic `t`) appends the handler at
the end of `t`'s list, reordering nothing, and leaves the subscriber list of
every other topic completely unchanged.  This holds for every registry state.
(Invariant I2.) -/
theorem register_frame (t u : String) (h : Handler) (s : MQState) (hne : u ≠ t) :
    (subscribe [t] h s).subs u = s.subs u ∧
      (subscribe [t] h s).subs t = s.subs t ++ [h] := by
  constructor
  · have hc : List.count u [t] = 0 := by
      simp [List.count_cons, beq_iff_eq]
      exact fun e => hne e.symm
    simp [subscribe_subs, hc]
  · have hc : List.count t [t] = 1 := by simp
    simp [subscribe_subs, hc]

theorem register_frame_witness :
    (subscribe ["a"] (Handler.logger 1) init).subs "b" = [] ∧
      (subscribe ["a"] (Handler.logger 1) init).subs "a" = [Handler.logger 1] := by
  have h := register_frame "a" "b" (Handler.logger 1) init (by decide)
  simpa using h

theorem count_singleton_self (h : Handler) : List.count h [h] = 1 := by simp

/-- C6 — Multi-topic subscribe independence.  One `subscribe` call for the
topic list `[ta, tb]` (distinct topics) registers the handler under each topic
independently, in the given order (appended to each topic's list); a
subsequent publish on `ta` attempts the handler exactly once, and a publish on
`tb` independently attempts it exactly once — never twice for one publish
(the trace count for the handler rises by exactly 1 per publish).
(Property P4.) -/
theorem subscribe_multi_topic (ta tb : String) (h : Handler) (v w : Val) (s : MQState)
    (hab : ta ≠ tb)
    (hta : ∀ g ∈ s.subs ta, tameB ta g = true)
    (htb : ∀ g ∈ s.subs tb, tameB tb g = true)
    (hha : tameB ta h = true) (hhb : tameB tb h = true)
    (hnotA : h ∉ s.subs ta) (hnotB : h ∉ s.subs tb) :
    (subscribe [ta, tb] h s).subs ta = s.subs ta ++ [h] ∧
    (subscribe [ta, tb] h s).subs tb = s.subs tb ++ [h] ∧
    (publish ta v (subscribe [ta, tb] h s)).calls.count (h, v)
      = (subscribe [ta, tb] h s).calls.count (h, v) + 1 ∧
    (publish tb w (subscribe [ta, tb] h s)).calls.count (h, w)
      = (subscribe [ta, tb] h s).calls.count (h, w) + 1 := by
  have hca : List.count ta [ta, tb] = 1 := by
    have : ¬ (tb == ta) = true := by simpa [beq_iff_eq] using fun e => hab e.symm
    simp [List.count_cons, this]
  have hcb : List.count tb [ta, tb] = 1 := by
    have : ¬ (ta == tb) = true := by simpa [beq_iff_eq] using hab
    simp [List.count_cons, this]
  have hsa : (subscribe [ta, tb] h s).subs ta = s.subs ta ++ [h] := by
    simp [subscribe_subs, hca]
  have hsb : (subscribe [ta, tb] h s).subs tb = s.subs tb ++ [h] := by
    simp [subscribe_subs, hcb]
  refine ⟨hsa, hsb, ?_, ?_⟩
  · have htame1 : ∀ g ∈ (subscribe [ta, tb] h s).subs ta, tameB ta g = true := by
      rw [hsa]
      intro g hg
      rcases List.mem_append.1 hg with hg | hg
      · exact hta g hg
      · rw [List.mem_singleton.1 hg]; exact hha
    have hcalls := (publish_tame ta v (subscribe [ta, tb] h s) htame1).1
    rw [hcalls, List.count_append, count_pair_map, hsa, List.count_append,
      List.count_eq_zero.2 hnotA, count_singleton_self]
  · have htame1 : ∀ g ∈ (subscribe [ta, tb] h s).subs tb, tameB tb g = true := by
      rw [hsb]
      intro g hg
      rcases List.mem_append.1 hg with hg | hg
      · exact htb g hg
      · rw [List.mem_singleton.1 hg]; exact hhb
    have hcalls := (publish_tame tb w (subscribe [ta, tb] h s) htame1).1
    rw [hcalls, List.count_append, count_pair_map, hsb, List.count_append,
      List.count_eq_zero.2 hnotB, count_singleton_self]

theorem subscribe_multi_topic_witness :
    (subscribe ["a", "b"] (Handler.logger 7) init).subs "a" = [Handler.logger 7] ∧
    (subscribe ["a", "b"] (Handler.logger 7) init).subs "b" = [Handler.logger 7] ∧
    (publish "a" (Val.str "x") (subscribe ["a", "b"] (Handler.logger 7) init)).calls.count
        (Handler.logger 7, Val.str "x") = 1 ∧
    (publish "b" (Val.str "y") (subscribe ["a", "b"] (Handler.logger 7) init)).calls.count
        (Handler.logger 7, Val.str "y") = 1 := by
  have h := subscribe_multi_topic "a" "b" (Handler.logger 7) (Val.str "x") (Val.str "y") init
    (by decide) (by intro g hg; simp [init] at hg) (by intro g hg; simp [init] at hg)
    (by decide) (by decide) (by simp [init]) (by simp [init])
  simpa [init, subscribe_calls] using h

/-- C7 — Topic independence by exact string match.  If a handler is not yet
registered anywhere and is then subscribed to exactly one topic `a`, a publish
on topic `b` attempts it exactly once when `b = a` (Lean `String` equality is
exact and case-sensitive) and never otherwise.  `a` ranges over all strings,
including the empty string, which is a legal topic distinct from every other
topic.  (Property P3.) -/
theorem topic_exact_match (a b : String) (h : Handler) (v : Val) (s : MQState)
    (hfresh : ∀ u, h ∉ s.subs u)
    (htame : ∀ g ∈ s.subs b, tameB b g = true)
    (hh : tameB b h = true) :
    (publish b v (subscribe [a] h s)).calls.count (h, v)
      = (subscribe [a] h s).calls.count (h, v) + (if b = a then 1 else 0) := by
  by_cases hba : b = a
  · subst hba
    have hsb : (subscribe [b] h s).subs b = s.subs b ++ [h] := by
      simp [subscribe_subs]
    have htame1 : ∀ g ∈ (subscribe [b] h s).subs b, tameB b g = true := by
      rw [hsb]
      intro g hg
      rcases List.mem_append.1 hg with hg | hg
      · exact htame g hg
      · rw [List.mem_singleton.1 hg]; exact hh
    have hcalls := (publish_tame b v (subscribe [b] h s) htame1).1
    rw [hcalls, List.count_append, count_pair_map, hsb, List.count_append,
      List.count_eq_zero.2 (hfresh b), count_singleton_self]
    simp
  · have hc : List.count b [a] = 0 := by
      have : ¬ (a == b) = true := by simpa [beq_iff_eq] using fun e => hba e.symm
      simp [List.count_cons, this]
    have hsb : (subscribe [a] h s).subs b = s.subs b := by
      simp [subscribe_subs, hc]
    have htame1 : ∀ g ∈ (subscribe [a] h s).subs b, tameB b g = true := by
      rw [hsb]; exact htame
    have hcalls := (publish_tame b v (subscribe [a] h s) htame1).1
    rw [hcalls, List.count_append, count_pair_map, hsb,
      List.count_eq_zero.2 (hfresh b)]
    simp [hba]

theorem topic_exact_match_witness :
    (publish "" Val.vnil (subscribe [""] (Handler.logger 0) init)).calls.count
        (Handler.logger 0, Val.vnil) = 1 ∧
    (publish "x" Val.vnil (subscribe [""] (Handler.logger 0) init)).calls.count
        (Handler.logger 0, Val.vnil) = 0 := by
  have h1 := topic_exact_match "" "" (Handler.logger 0) Val.vnil init
    (by intro u; simp [init]) (by intro g hg; simp [init] at hg) (by decide)
  have h2 := topic_exact_match "" "x" (Handler.logger 0) Val.vnil init
    (by intro u; simp [init]) (by intro g hg; simp [init] at hg) (by decide)
  constructor
  · simpa [init, subscribe_calls] using h1
  · simpa [init, subscribe_calls] using h2

/-- C10 — Duplicate topics in one subscribe call.  If the topic list passed to
a single `subscribe` call repeats the same topic (`[a, a]`), the handler is
stored once per occurrence (two entries at the end of `a`'s list), and one
subsequent publish on `a` attempts the handler once per stored entry — twice.
(The Ruby loop `types.each { |type| @subscribers[type] << block }` appends
unconditionally, with no de-duplication.) -/
theorem duplicate_topic_subscribe (a : String) (h : Handler) (v : Val) (s : MQState)
    (htame : ∀ g ∈ s.subs a, tameB a g = true) (hh : tameB a h = true)
    (hnot : h ∉ s.subs a) :
    (subscribe [a, a] h s).subs a = s.subs a ++ [h, h] ∧
    (publish a v (subscribe [a, a] h s)).calls.count (h, v)
      = (subscribe [a, a] h s).calls.count (h, v) + 2 := by
  have hca : List.count a [a, a] = 2 := by simp
  have hsa : (subscribe [a, a] h s).subs a = s.subs a ++ [h, h] := by
    rw [subscribe_subs, hca]
    rfl
  refine ⟨hsa, ?_⟩
  have htame1 : ∀ g ∈ (subscribe [a, a] h s).subs a, tameB a g = true := by
    rw [hsa]
    intro g hg
    rcases List.mem_append.1 hg with hg | hg
    · exact htame g hg
    · have hgh : g = h := by
        rcases List.mem_cons.1 hg with h1 | h1
        · exact h1
        · exact List.mem_singleton.1 h1
      rw [hgh]; exact hh
  have hcalls := (publish_tame a v (subscribe [a, a] h s) htame1).1
  rw [hcalls, List.count_append, count_pair_map, hsa, List.count_append,
    List.count_eq_zero.2 hnot]
  simp [List.count_cons]

theorem duplicate_topic_subscribe_witness :
    (subscribe ["a", "a"] (Handler.logger 5) init).subs "a"
      = [Handler.logger 5, Handler.logger 5] ∧
    (publish "a" (Val.num 9) (subscribe ["a", "a"] (Handler.logger 5) init)).calls.count
        (Handler.logger 5, Val.num 9) = 2 := by
  have h := duplicate_topic_subscribe "a" (Handler.logger 5) (Val.num 9) init
    (by intro g hg; simp [init] at hg) (by decide) (by simp [init])
  simpa [init, subscribe_calls] using h

/-- C3, counterexample — the claim "subscribe with an empty topic list or a
nil handler raises (or returns) an InvalidArgument failure synchronously
rather than being silently ignored" is false on the code: `subscribe` performs
no validation.  With an empty topic list the call is a silent no-op (the state
is returned unchanged — nothing is signaled); with a missing block, `nil` is
silently stored as a subscription entry for the topic. -/
theorem subscribe_invalid_args_counterexample :
    subscribe [] (Handler.logger 0) init = init ∧
    (subscribe ["x"] Handler.hnil init).subs "x" = [Handler.hnil] := by
  exact ⟨rfl, by decide⟩

/-- C3, amended — `subscribe` never signals anything: called with an empty
topic list it is a silent no-op (it returns the state unchanged, for every
state and handler), and a nil handler is accepted and stored as an ordinary
subscription entry at the end of the topic's list; the stored nil only
surfaces later, inside `publish`, where calling it raises `NoMethodError`,
which the delivery loop rescues and discards like any other subscriber
fault. -/
theorem subscribe_no_validation (t : String) (h : Handler) (v : Val) (s : MQState) :
    subscribe [] h s = s ∧
    (subscribe [t] Handler.hnil s).subs t = s.subs t ++ [Handler.hnil] ∧
    runHandler Handler.hnil v s
      = ({ s with calls := s.calls ++ [(Handler.hnil, v)] }, some HErr.nilCall) := by
  refine ⟨rfl, ?_, rfl⟩
  simp [subscribe_subs]

/-- C4, counterexample — the claim "a handler newly registered for `t` by a
handler running inside a publish on `t` is not invoked by the same in-flight
publish call" is false on the code: `@subscribers[type].each` iterates the
live array, so the appended handler is reached by the same sweep.  Concretely:
the only registered handler for `"t"` subscribes `logger 2` to `"t"` when
invoked, and the very same `publish` call then attempts `logger 2`. -/
theorem snapshot_delivery_counterexample :
    (subscribe ["t"] (Handler.subscriberH 1 ["t"] (Handler.logger 2)) init).subs "t"
      = [Handler.subscriberH 1 ["t"] (Handler.logger 2)] ∧
    (publish "t" Val.vnil
        (subscribe ["t"] (Handler.subscriberH 1 ["t"] (Handler.logger 2)) init)).calls
      = [(Handler.subscriberH 1 ["t"] (Handler.logger 2), Val.vnil),
          (Handler.logger 2, Val.vnil)] := by
  decide

/-- C4, amended — `publish` iterates the live subscriber array, not a
snapshot: if the (sole) handler registered for `t` registers a fresh handler
`h` under `t` when invoked, the same in-flight publish call appends `h` to
`t`'s array and then attempts `h` as well (after every previously listed
handler), with the same payload. -/
theorem live_list_delivery (t : String) (v : Val) (s : MQState) (id : Nat) (h : Handler)
    (hsub : s.subs t = [Handler.subscriberH id [t] h]) (hh : tameB t h = true) :
    (publish t v s).calls
      = s.calls ++ [(Handler.subscriberH id [t] h, v), (h, v)] ∧
    (publish t v s).subs t = [Handler.subscriberH id [t] h, h] := by
  obtain ⟨m, hm⟩ : ∃ m, hsize h = m + 1 := ⟨hsize h - 1, by have := hsize_pos h; omega⟩
  have hfuel : sizeSum (s.subs t) + 1 = (2 * m + 3) + 1 := by
    rw [hsub]
    simp [sizeSum, hsize, hm]
    ring
  have hlt0 : 0 < (s.subs t).length := by rw [hsub]; simp
  have hget0 : (s.subs t).get ⟨0, hlt0⟩ = Handler.subscriberH id [t] h := by
    simp [hsub]
  have hs1calls : (runHandler ((s.subs t).get ⟨0, hlt0⟩) v s).1.calls
      = s.calls ++ [(Handler.subscriberH id [t] h, v)] := by
    rw [hget0]
    exact runHandler_calls _ v s
  have hs1subs : (runHandler ((s.subs t).get ⟨0, hlt0⟩) v s).1.subs t
      = [Handler.subscriberH id [t] h, h] := by
    rw [hget0]
    simp [runHandler, subscribe_subs, hsub]
  have htame1 : ∀ g ∈ (((runHandler ((s.subs t).get ⟨0, hlt0⟩) v s).1.subs t).drop 1),
      tameB t g = true := by
    rw [hs1subs]
    intro g hg
    have hg2 : g ∈ [h] := by simpa using hg
    rw [List.mem_singleton.1 hg2]
    exact hh
  have hfuel1 : ((runHandler ((s.subs t).get ⟨0, hlt0⟩) v s).1.subs t).length + 1
      ≤ (2 * m + 3) + 1 := by
    rw [hs1subs]
    simp only [List.length_cons, List.length_nil]
    omega
  obtain ⟨hc, hsubfin⟩ :=
    publishAux_tame t v (2 * m + 3) 1 (runHandler ((s.subs t).get ⟨0, hlt0⟩) v s).1
      htame1 hfuel1
  rw [publish, hfuel, publishAux_step (2 * m + 3) 0 t v s hlt0]
  refine ⟨?_, by rw [hsubfin, hs1subs]⟩
  rw [hc, hs1calls, hs1subs]
  simp

theorem live_list_delivery_witness :
    (publish "t" (Val.num 5)
        (subscribe ["t"] (Handler.subscriberH 1 ["t"] (Handler.logger 2)) init)).calls
      = [(Handler.subscriberH 1 ["t"] (Handler.logger 2), Val.num 5),
          (Handler.logger 2, Val.num 5)] ∧
    (publish "t" (Val.num 5)
        (subscribe ["t"] (Handler.subscriberH 1 ["t"] (Handler.logger 2)) init)).subs "t"
      = [Handler.subscriberH 1 ["t"] (Handler.logger 2), Handler.logger 2] := by
  have h := live_list_delivery "t" (Val.num 5)
    (subscribe ["t"] (Handler.subscriberH 1 ["t"] (Handler.logger 2)) init)
    1 (Handler.logger 2) (by decide) (by decide)
  simpa [init, subscribe_calls] using h

/-- Key the driver assigns to a value: its parity class. -/
def topicOf (k : Nat) : String := if k % 2 = 0 then "even" else "odd"

/-- Look up the (sum, count) accumulator for `key` (0, 0 when absent). -/
def findAcc (key : String) : List (String × Int × Nat) → Int × Nat
  | [] => (0, 0)
  | (k, sm, c) :: rest => if k = key then (sm, c) else findAcc key rest

/-- Modelled from the spec: the map-reduce driver (`map_reduce.rb` is
referenced by the source — "Extra credit!!! check out map_reduce.rb..." — but
is not present under `src/`).  Per spec §4.3 and P6: before any publishing,
one sum/count reducer is subscribed per known key ("even", "odd"); then the
driver iterates the input collection `[1..1000]` sequentially, publishing each
value to the topic its parity selects.  The bus operations themselves
(`subscribe`, `publish`) are the source-derived ones above. -/
def mapReduceDriver : MQState :=
  (List.range' 1 1000).foldl
    (fun s k => publish (topicOf k) (Val.num (Int.ofNat k)) s)
    (subscribe ["odd"] (Handler.reducer "odd")
      (subscribe ["even"] (Handler.reducer "even") init))

/-- Publishing to a topic whose sole subscriber is its reducer reduces to one
accumulator update (plus the trace entry): the whole effect of one delivery
sweep. -/
theorem publish_reducer (t : String) (v : Val) (s : MQState)
    (hsub : s.subs t = [Handler.reducer t]) :
    publish t v s = { s with calls := s.calls ++ [(Handler.reducer t, v)],
                             accs := bump t (toInt v) s.accs } := by
  have hfuel : sizeSum (s.subs t) + 1 = 1 + 1 := by rw [hsub]; rfl
  have hlt0 : 0 < (s.subs t).length := by rw [hsub]; simp
  have hget0 : (s.subs t).get ⟨0, hlt0⟩ = Handler.reducer t := by simp [hsub]
  rw [publish, hfuel, publishAux_step 1 0 t v s hlt0, hget0]
  have hrun : (runHandler (Handler.reducer t) v s).1
      = { s with calls := s.calls ++ [(Handler.reducer t, v)],
                 accs := bump t (toInt v) s.accs } := rfl
  rw [hrun]
  exact publishAux_exit 0 1 t v _ (by simp [hsub])

/-- The driver's publish loop, on any state where each parity topic has
exactly its reducer subscribed, accumulates exactly the per-key `bump` fold of
the published values. -/
theorem foldPublish_accs (L : List Nat) :
    ∀ s : MQState, s.subs "even" = [Handler.reducer "even"] →
      s.subs "odd" = [Handler.reducer "odd"] →
      (L.foldl (fun st k => publish (topicOf k) (Val.num (Int.ofNat k)) st) s).accs
        = L.foldl (fun a k => bump (topicOf k) (Int.ofNat k) a) s.accs := by
  induction L with
  | nil => intro s he ho; rfl
  | cons k rest ih =>
      intro s he ho
      have hsub : s.subs (topicOf k) = [Handler.reducer (topicOf k)] := by
        by_cases hk : k % 2 = 0 <;> simp [topicOf, hk, he, ho]
      have hpub := publish_reducer (topicOf k) (Val.num (Int.ofNat k)) s hsub
      simp only [List.foldl_cons]
      rw [hpub, ih _ (by simp [he]) (by simp [ho])]
      simp [toInt]

set_option maxRecDepth 8000 in
/-- C5 — Map-reduce correctness and determinism.  With the input collection
`[1..1000]` partitioned by parity onto topics "even"/"odd" and one sum/count
reducer subscribed per topic before publishing begins, after the driver has
published every value (every `publish` having returned — delivery is
synchronous), the final accumulators are `count(even) = 500, sum(even) =
250500` and `count(odd) = 500, sum(odd) = 250000`.  Determinism is inherent:
the driver and the bus are pure functions of their inputs. -/
theorem mapReduce_correct :
    findAcc "even" mapReduceDriver.accs = (250500, 500) ∧
    findAcc "odd" mapReduceDriver.accs = (250000, 500) := by
  have he : (subscribe ["odd"] (Handler.reducer "odd")
      (subscribe ["even"] (Handler.reducer "even") init)).subs "even"
      = [Handler.reducer "even"] := by decide
  have ho : (subscribe ["odd"] (Handler.reducer "odd")
      (subscribe ["even"] (Handler.reducer "even") init)).subs "odd"
      = [Handler.reducer "odd"] := by decide
  have h := foldPublish_accs (List.range' 1 1000)
    (subscribe ["odd"] (Handler.reducer "odd")
      (subscribe ["even"] (Handler.reducer "even") init)) he ho
  simp only [mapReduceDriver]
  rw [h]
  decide
